import Mathlib

/-!
# Verification of the `SumTree` class of `UtilsRL/data_structure/sum_tree.py`

Shallow embedding of the Python class `SumTree`.  Weights (numpy `float64`
in the source) are modelled as exact rationals: every claim-relevant
operation is addition, subtraction or comparison of values on which binary
floating point and exact arithmetic agree in sign and order.  The numpy
array `self.value` is modelled as a `List ℚ`; all in-contract accesses of
the source are in bounds, and where the source can be called out of
contract the numpy indexing rules (negative wrap-around, `IndexError`) are
modelled explicitly.
-/

namespace UtilsRL

/-- Upward search with explicit fuel: the smallest `e ≥ d` with `n ≤ 2 ^ e`,
provided the fuel reaches it. -/
def ceilLog2From (n : ℕ) : ℕ → ℕ → ℕ
  | 0, d => d
  | fuel + 1, d => if n ≤ 2 ^ d then d else ceilLog2From n fuel (d + 1)

/-- `math.ceil(math.log2 n)` from the source constructor, modelled exactly on
naturals: the least `d` with `n ≤ 2 ^ d` (for `n ≥ 1`). -/
def ceilLog2 (n : ℕ) : ℕ := ceilLog2From n n 0

lemma ceilLog2From_le {n : ℕ} : ∀ fuel d, n ≤ 2 ^ (d + fuel) →
    n ≤ 2 ^ ceilLog2From n fuel d := by
  intro fuel
  induction fuel with
  | zero => intro d h; simpa using h
  | succ fuel ih =>
      intro d h
      rw [ceilLog2From]
      by_cases hd : n ≤ 2 ^ d
      · simp [hd]
      · simp only [hd, if_false]
        exact ih (d + 1) (by rw [show d + 1 + fuel = d + (fuel + 1) by omega]; exact h)

lemma ceilLog2From_min {n : ℕ} : ∀ fuel d m, d ≤ m → n ≤ 2 ^ m →
    ceilLog2From n fuel d ≤ m := by
  intro fuel
  induction fuel with
  | zero => intro d m hdm _; simpa using hdm
  | succ fuel ih =>
      intro d m hdm hm
      rw [ceilLog2From]
      by_cases hd : n ≤ 2 ^ d
      · simpa [hd] using hdm
      · simp only [hd, if_false]
        refine ih (d + 1) m ?_ hm
        rcases Nat.lt_or_ge d m with h | h
        · omega
        · exact absurd (le_antisymm hdm h ▸ hm) hd

lemma le_pow_ceilLog2 (n : ℕ) : n ≤ 2 ^ ceilLog2 n :=
  ceilLog2From_le n 0 (by simpa using (Nat.lt_two_pow n).le)

lemma ceilLog2_le {n m : ℕ} (h : n ≤ 2 ^ m) : ceilLog2 n ≤ m :=
  ceilLog2From_min n 0 m (Nat.zero_le m) h

/-- State of a Python `SumTree` object; the fields mirror the attributes
`max_size`, `tree_depth`, `tree_size`, `curr`, `size`, `value` set in
`__init__` and mutated by the methods. -/
structure SumTree where
  max_size : ℕ
  tree_depth : ℕ
  tree_size : ℕ
  curr : ℕ
  size : ℕ
  value : List ℚ
deriving DecidableEq, Repr, Inhabited

/-- `SumTree.__init__(max_size)`.  `math.log2` raises on input `0`
(`InvalidCapacity` in the spec), modelled as `none`. -/
def SumTree.new (max_size : ℕ) : Option SumTree :=
  if max_size = 0 then none
  else
    let d := ceilLog2 max_size
    some { max_size := max_size, tree_depth := d, tree_size := 2 ^ (d + 1) - 1,
           curr := 0, size := 0, value := List.replicate (2 ^ (d + 1) - 1) 0 }

/-- The tree produced by `SumTree(c)` for a concrete positive capacity. -/
def mkTree (c : ℕ) : SumTree := (SumTree.new c).getD default

/-- The upward-propagation loop of `SumTree.update`:
`while (idx-1)//2 >= 0` (Python floor division on ints, so the guard holds
exactly for `idx ≥ 1`): `father = (idx-1)//2; value[father] += diff;
idx = father`. -/
def propagate (v : List ℚ) (diff : ℚ) (idx : ℕ) : List ℚ :=
  if idx = 0 then v
  else
    let father := (idx - 1) / 2
    propagate (v.set father (v.getD father 0 + diff)) diff father
termination_by idx
decreasing_by omega

/-- `SumTree.update(idx, new_value)` at an in-contract slot (a natural
number below `max_size`): translate to the leaf index `idx + 2^depth - 1`,
overwrite the leaf, propagate the difference up to the root. -/
def SumTree.update (t : SumTree) (slot : ℕ) (w : ℚ) : SumTree :=
  let idx := slot + 2 ^ t.tree_depth - 1
  let diff := w - t.value.getD idx 0
  { t with value := propagate (t.value.set idx w) diff idx }

/-- `SumTree.add(new_value)`: `update` at the cursor, then advance the
cursor modulo `max_size` and saturate `size` at `max_size`. -/
def SumTree.add (t : SumTree) (w : ℚ) : SumTree :=
  let u := t.update t.curr w
  { u with curr := (t.curr + 1) % t.max_size, size := min (t.size + 1) t.max_size }

/-- `SumTree._find_helper(target, index)`: descend from `index`; at a node
whose children exist, go left when `target <= value[2*index+1]`, else
subtract the left weight and go right; at a leaf return
`(index - 2^depth + 1, value[index])`. -/
def SumTree.findHelper (t : SumTree) (target : ℚ) (index : ℕ) : ℕ × ℚ :=
  if 2 * index + 1 > t.tree_size - 1 then
    (index + 1 - 2 ^ t.tree_depth, t.value.getD index 0)
  else if target ≤ t.value.getD (2 * index + 1) 0 then
    t.findHelper target (2 * index + 1)
  else
    t.findHelper (target - t.value.getD (2 * index + 1) 0) (2 * index + 2)
termination_by t.tree_size - index
decreasing_by all_goals omega

/-- `SumTree.find(target, normalize)`: scale by the root weight when
`normalize` is true, then descend from the root and return the slot. -/
def SumTree.find (t : SumTree) (target : ℚ) (normalize : Bool) : ℕ :=
  (t.findHelper (if normalize then target * t.value.getD 0 0 else target) 0).1

/-- `SumTree.total`: the root weight. -/
def SumTree.total (t : SumTree) : ℚ := t.value.getD 0 0

/-- `np.max` over a list; raises (`none`) on an empty slice. -/
def npMax (l : List ℚ) : Option ℚ := l.max?

/-- `SumTree.max`: `0` when `size == 0`, else `np.max` of the slice
`value[start : start + size]` with `start = 2**tree_depth + 1` exactly as
written in the source (numpy slices clip at the array end). -/
def SumTree.max (t : SumTree) : Option ℚ :=
  if t.size = 0 then some 0
  else npMax ((t.value.drop (2 ^ t.tree_depth + 1)).take t.size)

/-- Numpy integer indexing into an array of length `n`: an index in
`[-n, n)` resolves (negatives wrap), anything else raises `IndexError`. -/
def npIdx (n : ℕ) (i : ℤ) : Option ℕ :=
  if 0 ≤ i ∧ i < (n : ℤ) then some i.toNat
  else if -(n : ℤ) ≤ i ∧ i < 0 then some (i + n).toNat
  else none

/-- The propagation loop of `update` on the raw Python int `idx` (needed
when a caller passes an out-of-contract slot): the guard
`(idx-1)//2 >= 0` under floor division holds exactly for `idx ≥ 1`, and
all fathers of a nonnegative in-bounds `idx` are nonnegative and in
bounds. -/
def propagateI (v : List ℚ) (diff : ℚ) (idx : ℤ) : List ℚ :=
  if h : 1 ≤ idx then
    let father := (idx - 1) / 2
    propagateI (v.set father.toNat (v.getD father.toNat 0 + diff)) diff father
  else v
termination_by idx.toNat
decreasing_by
  have h1 : (idx - 1) / 2 < idx := by
    have : (idx - 1) / 2 ≤ (idx - 1) := Int.ediv_le_self _ (by omega)
    omega
  have h2 : 0 ≤ (idx - 1) / 2 := Int.ediv_nonneg (by omega) (by omega)
  omega

/-- `SumTree.update(idx, new_value)` exactly as the source behaves on an
arbitrary Python int slot: the translated index is used for the numpy
array read/write (wrap-around for negatives, `IndexError` when outside
`[-n, n)`) and for the upward loop. -/
def SumTree.updateI (t : SumTree) (slot : ℤ) (w : ℚ) : Except Unit SumTree :=
  let idx : ℤ := slot + 2 ^ t.tree_depth - 1
  match npIdx t.value.length idx with
  | none => .error ()
  | some j =>
      let diff := w - t.value.getD j 0
      .ok { t with value := propagateI (t.value.set j w) diff idx }

/-- Invariant I1 of the spec: every node with two children in range stores
the sum of its children. -/
def Inv (v : List ℚ) : Prop :=
  ∀ i < v.length, 2 * i + 2 < v.length →
    v.getD i 0 = v.getD (2 * i + 1) 0 + v.getD (2 * i + 2) 0

instance (v : List ℚ) : Decidable (Inv v) := by
  unfold Inv; infer_instance

/-- Structural well-formedness of a tree state, as established by the
constructor and preserved by the methods. -/
def SumTree.WF (t : SumTree) : Prop :=
  1 ≤ t.max_size ∧
  t.tree_size = 2 ^ (t.tree_depth + 1) - 1 ∧
  t.value.length = t.tree_size ∧
  t.max_size ≤ 2 ^ t.tree_depth ∧
  t.curr < t.max_size ∧
  t.size ≤ t.max_size

instance (t : SumTree) : Decidable t.WF := by
  unfold SumTree.WF; infer_instance

/-- Sum of all `2^depth` leaf weights (populated slots and padding). -/
def leafSum (t : SumTree) : ℚ :=
  ∑ j ∈ Finset.range (2 ^ t.tree_depth),
    t.value.getD (2 ^ t.tree_depth - 1 + j) 0

/-- One call of the public mutation API. -/
inductive Op where
  | upd : ℕ → ℚ → Op
  | app : ℚ → Op
deriving DecidableEq, Repr

/-- Validity of a call against a capacity: `update` needs a slot below the
capacity and a nonnegative weight, `append` a nonnegative weight. -/
def Op.valid (c : ℕ) : Op → Bool
  | .upd s w => decide (s < c) && decide (0 ≤ w)
  | .app w => decide (0 ≤ w)

def applyOp (t : SumTree) : Op → SumTree
  | .upd s w => t.update s w
  | .app w => t.add w

def applyOps : List Op → SumTree → SumTree
  | [], t => t
  | op :: rest, t => applyOps rest (applyOp t op)

/-! ## List access helpers -/

lemma getD_set_self (l : List ℚ) (i : ℕ) (a : ℚ) (h : i < l.length) :
    (l.set i a).getD i 0 = a := by
  simp [List.getD_eq_getElem?_getD, List.getElem?_set, h]

lemma getD_set_ne (l : List ℚ) {i j : ℕ} (a : ℚ) (h : i ≠ j) :
    (l.set i a).getD j 0 = l.getD j 0 := by
  simp [List.getD_eq_getElem?_getD, List.getElem?_set, h]

lemma set_getD_self (l : List ℚ) (i : ℕ) : l.set i (l.getD i 0) = l := by
  induction l generalizing i with
  | nil => simp
  | cons x xs ih =>
      cases i with
      | zero => simp [List.getD]
      | succ n => simp [List.getD] at ih ⊢; exact ih n

lemma getD_nonneg {l : List ℚ} (h : ∀ x ∈ l, 0 ≤ x) (j : ℕ) : 0 ≤ l.getD j 0 := by
  rcases Nat.lt_or_ge j l.length with hj | hj
  · rw [List.getD_eq_getElem _ _ hj]; exact h _ (List.getElem_mem hj)
  · rw [List.getD_eq_default _ _ hj]

lemma getD_replicate_zero (n j : ℕ) : (List.replicate n (0 : ℚ)).getD j 0 = 0 := by
  rcases Nat.lt_or_ge j n with hj | hj
  · rw [List.getD_eq_getElem _ _ (by simpa using hj)]; simp
  · rw [List.getD_eq_default]; simp [hj]

/-! ## The ancestor chain of a tree index

`ancs idx` is the list of indices the `while` loop of `update` touches when
started at `idx`: the father `(idx-1)/2`, its father, and so on up to the
root `0` (empty when `idx = 0`). -/

def ancs (idx : ℕ) : List ℕ :=
  if idx = 0 then []
  else ((idx - 1) / 2) :: ancs ((idx - 1) / 2)
termination_by idx
decreasing_by omega

lemma mem_ancs_lt : ∀ idx, ∀ j ∈ ancs idx, j < idx := by
  intro idx
  induction idx using Nat.strong_induction_on with
  | _ idx ih =>
      intro j hj
      rw [ancs] at hj
      by_cases h0 : idx = 0
      · simp [h0] at hj
      · simp only [h0, if_false, List.mem_cons] at hj
        rcases hj with rfl | hj
        · omega
        · exact lt_trans (ih _ (by omega) j hj) (by omega)

lemma father_mem_ancs : ∀ ℓ c, (c = ℓ ∨ c ∈ ancs ℓ) → c ≠ 0 → (c - 1) / 2 ∈ ancs ℓ := by
  intro ℓ
  induction ℓ using Nat.strong_induction_on with
  | _ ℓ ih =>
      intro c hc hc0
      rcases hc with rfl | hc
      · rw [ancs]; simp [hc0]
      · have hℓ0 : ℓ ≠ 0 := by
          intro h; rw [h, ancs] at hc; simp at hc
        rw [ancs] at hc ⊢
        simp only [hℓ0, if_false, List.mem_cons] at hc ⊢
        rcases hc with hceq | hc
        · right
          subst hceq
          exact ih ((ℓ - 1) / 2) (by omega) _ (Or.inl rfl) hc0
        · right
          exact ih ((ℓ - 1) / 2) (by omega) c (Or.inr hc) hc0

lemma ancs_child_iff : ∀ ℓ i, i ∈ ancs ℓ →
    ((2 * i + 1 = ℓ ∨ 2 * i + 1 ∈ ancs ℓ) ↔ ¬(2 * i + 2 = ℓ ∨ 2 * i + 2 ∈ ancs ℓ)) := by
  intro ℓ
  induction ℓ using Nat.strong_induction_on with
  | _ ℓ ih =>
      intro i hi
      have hℓ0 : ℓ ≠ 0 := by
        intro h; rw [h, ancs] at hi; simp at hi
      have hf : ancs ℓ = ((ℓ - 1) / 2) :: ancs ((ℓ - 1) / 2) := by
        rw [ancs]; simp [hℓ0]
      rw [hf, List.mem_cons] at hi
      rcases hi with rfl | hi
      · -- `i` is the father of `ℓ`, so `ℓ` is one of its two children
        have hchild : ℓ = 2 * ((ℓ - 1) / 2) + 1 ∨ ℓ = 2 * ((ℓ - 1) / 2) + 2 := by omega
        rcases hchild with hc | hc
        · constructor
          · intro _
            intro hr
            rcases hr with hr | hr
            · omega
            · have := mem_ancs_lt ℓ _ hr; omega
          · intro _; left; omega
        · constructor
          · intro hl
            rcases hl with hl | hl
            · omega
            · rw [hf, List.mem_cons] at hl
              rcases hl with hl | hl
              · omega
              · have := mem_ancs_lt ((ℓ - 1) / 2) _ hl; omega
          · intro hr
            exact absurd (Or.inl (by omega)) hr
      · -- `i` is a strict ancestor of the father; use the induction hypothesis
        have hstep := ih ((ℓ - 1) / 2) (by omega) i hi
        have h1 : 2 * i + 1 ≠ ℓ := by
          intro h
          have : (ℓ - 1) / 2 = i := by omega
          have := mem_ancs_lt ((ℓ - 1) / 2) i hi; omega
        have h2 : 2 * i + 2 ≠ ℓ := by
          intro h
          have : (ℓ - 1) / 2 = i := by omega
          have := mem_ancs_lt ((ℓ - 1) / 2) i hi; omega
        rw [hf]
        simp only [List.mem_cons]
        constructor
        · intro hl hr
          have hl' : 2 * i + 1 = (ℓ - 1) / 2 ∨ 2 * i + 1 ∈ ancs ((ℓ - 1) / 2) := by
            rcases hl with hl | hl
            · exact absurd hl h1
            · exact hl
          have hr' : 2 * i + 2 = (ℓ - 1) / 2 ∨ 2 * i + 2 ∈ ancs ((ℓ - 1) / 2) := by
            rcases hr with hr | hr
            · exact absurd hr h2
            · exact hr
          exact (hstep.mp hl') hr'
        · intro hr
          have : ¬(2 * i + 2 = (ℓ - 1) / 2 ∨ 2 * i + 2 ∈ ancs ((ℓ - 1) / 2)) := by
            intro hc
            exact hr (Or.inr hc)
          right
          exact hstep.mpr this

/-! ## Extensional description of the propagation loop -/

lemma propagate_length : ∀ idx (v : List ℚ) (diff : ℚ),
    (propagate v diff idx).length = v.length := by
  intro idx
  induction idx using Nat.strong_induction_on with
  | _ idx ih =>
      intro v diff
      rw [propagate]
      by_cases h0 : idx = 0
      · simp [h0]
      · simp only [h0, if_false]
        rw [ih _ (by omega)]
        simp

lemma propagate_getD : ∀ idx (v : List ℚ) (diff : ℚ) (j : ℕ), idx ≤ v.length →
    (propagate v diff idx).getD j 0 =
      if j ∈ ancs idx then v.getD j 0 + diff else v.getD j 0 := by
  intro idx
  induction idx using Nat.strong_induction_on with
  | _ idx ih =>
      intro v diff j hlen
      rw [propagate]
      by_cases h0 : idx = 0
      · rw [ancs]; simp [h0]
      · simp only [h0, if_false]
        have hfl : (idx - 1) / 2 < idx := by omega
        have hflen : (idx - 1) / 2 < v.length := by omega
        have hmem : ancs idx = ((idx - 1) / 2) :: ancs ((idx - 1) / 2) := by
          rw [ancs]; simp [h0]
        rw [ih _ hfl _ _ _ (by rw [List.length_set]; omega)]
        simp only [hmem, List.mem_cons]
        by_cases hj : j = (idx - 1) / 2
        · subst hj
          have hnin : ((idx - 1) / 2) ∉ ancs ((idx - 1) / 2) :=
            fun h => absurd (mem_ancs_lt _ _ h) (lt_irrefl _)
          simp [hnin, List.getD_eq_getElem?_getD, List.getElem?_set, hflen]
        · have hne : (idx - 1) / 2 ≠ j := fun h => hj h.symm
          by_cases hmemj : j ∈ ancs ((idx - 1) / 2)
          · simp [hmemj, hj, List.getD_eq_getElem?_getD, List.getElem?_set, hne]
          · simp [hmemj, hj, List.getD_eq_getElem?_getD, List.getElem?_set, hne]

/-! ## Extensional description of `update` -/

lemma update_value_length (t : SumTree) (s : ℕ) (w : ℚ) :
    (t.update s w).value.length = t.value.length := by
  show (propagate _ _ _).length = _
  rw [propagate_length, List.length_set]

lemma update_getD (t : SumTree) (s : ℕ) (w : ℚ)
    (hleaf : s + 2 ^ t.tree_depth - 1 < t.value.length) (j : ℕ) :
    (t.update s w).value.getD j 0 =
      if j = s + 2 ^ t.tree_depth - 1 then w
      else if j ∈ ancs (s + 2 ^ t.tree_depth - 1) then
        t.value.getD j 0 + (w - t.value.getD (s + 2 ^ t.tree_depth - 1) 0)
      else t.value.getD j 0 := by
  have hval : (t.update s w).value =
      propagate (t.value.set (s + 2 ^ t.tree_depth - 1) w)
        (w - t.value.getD (s + 2 ^ t.tree_depth - 1) 0) (s + 2 ^ t.tree_depth - 1) := rfl
  rw [hval, propagate_getD _ _ _ j (by rw [List.length_set]; omega)]
  by_cases hj : j = s + 2 ^ t.tree_depth - 1
  · subst hj
    have hnin : (s + 2 ^ t.tree_depth - 1) ∉ ancs (s + 2 ^ t.tree_depth - 1) :=
      fun h => absurd (mem_ancs_lt _ _ h) (lt_irrefl _)
    simp [hnin, List.getD_eq_getElem?_getD, List.getElem?_set, hleaf]
  · have hne : s + 2 ^ t.tree_depth - 1 ≠ j := fun h => hj h.symm
    by_cases hmemj : j ∈ ancs (s + 2 ^ t.tree_depth - 1)
    · simp [hmemj, hj, List.getD_eq_getElem?_getD, List.getElem?_set, hne]
    · simp [hmemj, hj, List.getD_eq_getElem?_getD, List.getElem?_set, hne]

/-! ## The raw-int entry point agrees with `update` on in-contract slots -/

lemma propagateI_natCast : ∀ (idx : ℕ) (v : List ℚ) (diff : ℚ),
    propagateI v diff (idx : ℤ) = propagate v diff idx := by
  intro idx
  induction idx using Nat.strong_induction_on with
  | _ idx ih =>
      intro v diff
      rw [propagateI, propagate]
      by_cases h0 : idx = 0
      · simp [h0]
      · have h1 : 1 ≤ (idx : ℤ) := by exact_mod_cast Nat.one_le_iff_ne_zero.mpr h0
        rw [dif_pos h1, if_neg h0]
        have hfa : ((idx : ℤ) - 1) / 2 = (((idx - 1) / 2 : ℕ) : ℤ) := by
          omega
        simp only [hfa, Int.toNat_natCast]
        exact ih _ (by omega) _ _

lemma updateI_eq_update (t : SumTree) (s : ℕ) (w : ℚ) (hWF : t.WF)
    (hs : s < t.max_size) : t.updateI (s : ℤ) w = Except.ok (t.update s w) := by
  obtain ⟨hms, hts, hlen, hcap, -, -⟩ := hWF
  have hp : 1 ≤ (2 : ℕ) ^ t.tree_depth := Nat.one_le_two_pow
  have hpow : (2 : ℕ) ^ (t.tree_depth + 1) = 2 * 2 ^ t.tree_depth := by ring
  have hlen' : t.value.length = 2 ^ (t.tree_depth + 1) - 1 := by rw [hlen, hts]
  have hleaf : s + 2 ^ t.tree_depth - 1 < t.value.length := by omega
  have hcast : (s : ℤ) + 2 ^ t.tree_depth - 1 = ((s + 2 ^ t.tree_depth - 1 : ℕ) : ℤ) := by
    push_cast [Nat.cast_sub (by omega : 1 ≤ s + 2 ^ t.tree_depth)]
    ring
  rw [SumTree.updateI, hcast]
  rw [show npIdx t.value.length ((s + 2 ^ t.tree_depth - 1 : ℕ) : ℤ) =
      some (s + 2 ^ t.tree_depth - 1) from by
    rw [npIdx, if_pos ⟨Int.natCast_nonneg _, by exact_mod_cast hleaf⟩, Int.toNat_natCast]]
  simp only [propagateI_natCast]
  rfl

/-! ## Preservation of the sum invariant -/

lemma Inv_update (t : SumTree) (s : ℕ) (w : ℚ) (hWF : t.WF)
    (hs : s < t.max_size) (hInv : Inv t.value) : Inv (t.update s w).value := by
  obtain ⟨hms, hts, hlen, hcap, hcurr, hsize⟩ := hWF
  have hp : 1 ≤ 2 ^ t.tree_depth := Nat.one_le_two_pow
  have hpow : (2 : ℕ) ^ (t.tree_depth + 1) = 2 * 2 ^ t.tree_depth := by ring
  have hlen' : t.value.length = 2 ^ (t.tree_depth + 1) - 1 := by rw [hlen, hts]
  have hleaf : s + 2 ^ t.tree_depth - 1 < t.value.length := by omega
  intro i hi h2
  rw [update_value_length] at hi h2
  rw [update_getD t s w hleaf i, update_getD t s w hleaf (2 * i + 1),
    update_getD t s w hleaf (2 * i + 2)]
  have hiℓ : i ≠ s + 2 ^ t.tree_depth - 1 := by omega
  have hInv_i := hInv i hi h2
  rw [if_neg hiℓ]
  by_cases hmem : i ∈ ancs (s + 2 ^ t.tree_depth - 1)
  · rw [if_pos hmem]
    have hiff := ancs_child_iff _ i hmem
    by_cases hc1 : 2 * i + 1 = s + 2 ^ t.tree_depth - 1 ∨
        2 * i + 1 ∈ ancs (s + 2 ^ t.tree_depth - 1)
    · have hc2 : ¬(2 * i + 2 = s + 2 ^ t.tree_depth - 1 ∨
          2 * i + 2 ∈ ancs (s + 2 ^ t.tree_depth - 1)) := hiff.mp hc1
      rw [if_neg (fun h => hc2 (Or.inl h)), if_neg (fun h => hc2 (Or.inr h))]
      rcases hc1 with hc1 | hc1
      · rw [if_pos hc1, hInv_i, ← hc1]
        ring
      · have hne1 : 2 * i + 1 ≠ s + 2 ^ t.tree_depth - 1 := by
          have := mem_ancs_lt _ _ hc1; omega
        rw [if_neg hne1, if_pos hc1, hInv_i]
        ring
    · have hc2 : 2 * i + 2 = s + 2 ^ t.tree_depth - 1 ∨
          2 * i + 2 ∈ ancs (s + 2 ^ t.tree_depth - 1) := by
        by_contra hcon
        exact hc1 (hiff.mpr hcon)
      rw [if_neg (fun h => hc1 (Or.inl h)), if_neg (fun h => hc1 (Or.inr h))]
      rcases hc2 with hc2 | hc2
      · rw [if_pos hc2, hInv_i, ← hc2]
        ring
      · have hne2 : 2 * i + 2 ≠ s + 2 ^ t.tree_depth - 1 := by
          have := mem_ancs_lt _ _ hc2; omega
        rw [if_neg hne2, if_pos hc2, hInv_i]
        ring
  · rw [if_neg hmem]
    have hnc1 : ¬(2 * i + 1 = s + 2 ^ t.tree_depth - 1 ∨
        2 * i + 1 ∈ ancs (s + 2 ^ t.tree_depth - 1)) := by
      intro h
      have := father_mem_ancs _ _ h (by omega)
      rw [show (2 * i + 1 - 1) / 2 = i by omega] at this
      exact hmem this
    have hnc2 : ¬(2 * i + 2 = s + 2 ^ t.tree_depth - 1 ∨
        2 * i + 2 ∈ ancs (s + 2 ^ t.tree_depth - 1)) := by
      intro h
      have := father_mem_ancs _ _ h (by omega)
      rw [show (2 * i + 2 - 1) / 2 = i by omega] at this
      exact hmem this
    rw [if_neg (fun h => hnc1 (Or.inl h)), if_neg (fun h => hnc1 (Or.inr h)),
      if_neg (fun h => hnc2 (Or.inl h)), if_neg (fun h => hnc2 (Or.inr h))]
    exact hInv_i

lemma WF_update (t : SumTree) (s : ℕ) (w : ℚ) (h : t.WF) : (t.update s w).WF := by
  obtain ⟨h1, h2, h3, h4, h5, h6⟩ := h
  exact ⟨h1, h2, by rw [update_value_length]; exact h3, h4, h5, h6⟩

lemma WF_add (t : SumTree) (w : ℚ) (h : t.WF) : (t.add w).WF := by
  obtain ⟨h1, h2, h3, h4, h5, h6⟩ := h
  refine ⟨h1, h2, ?_, h4, ?_, ?_⟩
  · show (t.update t.curr w).value.length = t.tree_size
    rw [update_value_length]; exact h3
  · show (t.curr + 1) % t.max_size < t.max_size
    exact Nat.mod_lt _ (by omega)
  · show min (t.size + 1) t.max_size ≤ t.max_size
    exact min_le_right _ _

lemma Inv_add (t : SumTree) (w : ℚ) (hWF : t.WF) (hInv : Inv t.value) :
    Inv (t.add w).value :=
  Inv_update t t.curr w hWF hWF.2.2.2.2.1 hInv

/-! ## The freshly constructed tree -/

lemma new_eq (c : ℕ) (hc : 1 ≤ c) : SumTree.new c = some
    { max_size := c, tree_depth := ceilLog2 c, tree_size := 2 ^ (ceilLog2 c + 1) - 1,
      curr := 0, size := 0, value := List.replicate (2 ^ (ceilLog2 c + 1) - 1) 0 } := by
  rw [SumTree.new]
  simp [show c ≠ 0 by omega]

lemma mkTree_eq (c : ℕ) (hc : 1 ≤ c) : mkTree c =
    { max_size := c, tree_depth := ceilLog2 c, tree_size := 2 ^ (ceilLog2 c + 1) - 1,
      curr := 0, size := 0, value := List.replicate (2 ^ (ceilLog2 c + 1) - 1) 0 } := by
  rw [mkTree, new_eq c hc]
  rfl

lemma mkTree_WF (c : ℕ) (hc : 1 ≤ c) : (mkTree c).WF := by
  rw [mkTree_eq c hc]
  exact ⟨hc, rfl, by simp, le_pow_ceilLog2 c, hc, Nat.zero_le _⟩

lemma mkTree_Inv (c : ℕ) (hc : 1 ≤ c) : Inv (mkTree c).value := by
  rw [mkTree_eq c hc]
  intro i _ _
  simp [getD_replicate_zero]

/-! ## Sequences of valid calls -/

lemma applyOps_good : ∀ (ops : List Op) (t : SumTree), t.WF → Inv t.value →
    (∀ op ∈ ops, Op.valid t.max_size op = true) →
    (applyOps ops t).WF ∧ Inv (applyOps ops t).value ∧
      (applyOps ops t).max_size = t.max_size := by
  intro ops
  induction ops with
  | nil => intro t h1 h2 _; exact ⟨h1, h2, rfl⟩
  | cons op rest ih =>
      intro t h1 h2 hv
      have hop := hv op (List.mem_cons_self op rest)
      have hstep : (applyOp t op).WF ∧ Inv (applyOp t op).value ∧
          (applyOp t op).max_size = t.max_size := by
        cases op with
        | upd s w =>
            simp only [Op.valid, Bool.and_eq_true, decide_eq_true_eq] at hop
            exact ⟨WF_update t s w h1, Inv_update t s w h1 hop.1 h2, rfl⟩
        | app w => exact ⟨WF_add t w h1, Inv_add t w h1 h2, rfl⟩
      rw [applyOps]
      have hrest := ih (applyOp t op) hstep.1 hstep.2.1
        (by intro o ho; rw [hstep.2.2]; exact hv o (List.mem_cons_of_mem _ ho))
      exact ⟨hrest.1, hrest.2.1, by rw [hrest.2.2, hstep.2.2]⟩

/-! ## The root weight is the sum of the leaves -/

lemma sum_range_double (n : ℕ) (f : ℕ → ℚ) :
    ∑ j ∈ Finset.range (2 * n), f j =
      ∑ i ∈ Finset.range n, (f (2 * i) + f (2 * i + 1)) := by
  induction n with
  | zero => simp
  | succ n ih =>
      rw [show 2 * (n + 1) = (2 * n + 1) + 1 by ring, Finset.sum_range_succ,
        Finset.sum_range_succ, ih, Finset.sum_range_succ]
      ring

lemma Inv_level (v : List ℚ) (d : ℕ) (hlen : v.length = 2 ^ (d + 1) - 1)
    (hInv : Inv v) : ∀ k, k ≤ d →
      ∑ j ∈ Finset.range (2 ^ k), v.getD (2 ^ k - 1 + j) 0 = v.getD 0 0 := by
  intro k
  induction k with
  | zero => intro _; simp
  | succ k ih =>
      intro hk
      rw [← ih (by omega)]
      rw [show (2 : ℕ) ^ (k + 1) = 2 * 2 ^ k by ring, sum_range_double]
      apply Finset.sum_congr rfl
      intro i hi
      rw [Finset.mem_range] at hi
      have hp : 1 ≤ (2 : ℕ) ^ k := Nat.one_le_two_pow
      have hkk : (2 : ℕ) ^ (k + 1) = 2 * 2 ^ k := by ring
      have hdd : (2 : ℕ) ^ (k + 2) ≤ 2 ^ (d + 1) := Nat.pow_le_pow_right (by norm_num) (by omega)
      have hk2 : (2 : ℕ) ^ (k + 2) = 4 * 2 ^ k := by ring
      have hbound : 2 * (2 ^ k - 1 + i) + 2 < v.length := by rw [hlen]; omega
      have e1 : 2 * 2 ^ k - 1 + 2 * i = 2 * (2 ^ k - 1 + i) + 1 := by omega
      have e2 : 2 * 2 ^ k - 1 + (2 * i + 1) = 2 * (2 ^ k - 1 + i) + 2 := by omega
      rw [e1, e2, ← hInv (2 ^ k - 1 + i) (by omega) hbound]

lemma total_eq_leafSum (t : SumTree) (hWF : t.WF) (hInv : Inv t.value) :
    t.total = leafSum t := by
  obtain ⟨h1, h2, h3, _⟩ := hWF
  have := Inv_level t.value t.tree_depth (by rw [h3, h2]) hInv t.tree_depth le_rfl
  rw [SumTree.total, leafSum]
  exact this.symm

/-! ## Propagating a zero difference changes nothing -/

lemma propagate_zero_diff : ∀ idx (v : List ℚ), propagate v 0 idx = v := by
  intro idx
  induction idx using Nat.strong_induction_on with
  | _ idx ih =>
      intro v
      rw [propagate]
      by_cases h0 : idx = 0
      · simp [h0]
      · simp only [h0, if_false]
        rw [add_zero, set_getD_self, ih _ (by omega)]

/-! ## The descent of `find` -/

lemma findHelper_left_of_zero : ∀ (m : ℕ) (t : SumTree) (k : ℕ),
    t.tree_size = 2 ^ (t.tree_depth + 1) - 1 →
    (∀ j : ℕ, 0 ≤ t.value.getD j 0) →
    k + m = t.tree_depth →
    (t.findHelper 0 (2 ^ k - 1)).1 = 0 := by
  intro m
  induction m with
  | zero =>
      intro t k hts _ hk
      have hd : t.tree_depth = k := by omega
      have hp : 1 ≤ (2 : ℕ) ^ k := Nat.one_le_two_pow
      have h2 : (2 : ℕ) ^ (k + 1) = 2 * 2 ^ k := by ring
      rw [SumTree.findHelper, hts, hd, if_pos (by omega)]
      show 2 ^ k - 1 + 1 - 2 ^ k = 0
      omega
  | succ m ih =>
      intro t k hts hpos hk
      have hp : 1 ≤ (2 : ℕ) ^ k := Nat.one_le_two_pow
      have hstep : (2 : ℕ) ^ (k + 1) ≤ 2 ^ t.tree_depth :=
        Nat.pow_le_pow_right (by norm_num) (by omega)
      have hdp : (2 : ℕ) ^ (t.tree_depth + 1) = 2 * 2 ^ t.tree_depth := by ring
      have hkk : (2 : ℕ) ^ (k + 1) = 2 * 2 ^ k := by ring
      rw [SumTree.findHelper, if_neg (by rw [hts]; omega), if_pos (hpos _),
        show 2 * (2 ^ k - 1) + 1 = 2 ^ (k + 1) - 1 by omega]
      exact ih t (k + 1) hts hpos (by omega)

lemma findHelper_lt : ∀ (n : ℕ) (t : SumTree) (target : ℚ) (i : ℕ),
    t.tree_size = 2 ^ (t.tree_depth + 1) - 1 →
    t.tree_size - i ≤ n → i ≤ t.tree_size - 1 →
    (t.findHelper target i).1 < 2 ^ t.tree_depth := by
  intro n
  induction n with
  | zero =>
      intro t target i hts hn hi
      have hp : 1 ≤ (2 : ℕ) ^ t.tree_depth := Nat.one_le_two_pow
      have hdp : (2 : ℕ) ^ (t.tree_depth + 1) = 2 * 2 ^ t.tree_depth := by ring
      omega
  | succ n ih =>
      intro t target i hts hn hi
      have hp : 1 ≤ (2 : ℕ) ^ t.tree_depth := Nat.one_le_two_pow
      have hdp : (2 : ℕ) ^ (t.tree_depth + 1) = 2 * 2 ^ t.tree_depth := by ring
      rw [SumTree.findHelper]
      by_cases hleaf : 2 * i + 1 > t.tree_size - 1
      · rw [if_pos hleaf]
        show i + 1 - 2 ^ t.tree_depth < 2 ^ t.tree_depth
        omega
      · rw [if_neg hleaf]
        have hi1 : 2 * i + 1 ≤ t.tree_size - 1 := by omega
        have hi2 : 2 * i + 2 ≤ t.tree_size - 1 := by omega
        by_cases hc : target ≤ t.value.getD (2 * i + 1) 0
        · rw [if_pos hc]
          exact ih t target (2 * i + 1) hts (by omega) hi1
        · rw [if_neg hc]
          exact ih t _ (2 * i + 2) hts (by omega) hi2

/-! ## Concrete trees obtained by short call sequences -/

lemma mkTree3_eval : mkTree 3 =
    ⟨3, 2, 7, 0, 0, [0, 0, 0, 0, 0, 0, 0]⟩ := by decide

lemma mkTree4_eval : mkTree 4 =
    ⟨4, 2, 7, 0, 0, [0, 0, 0, 0, 0, 0, 0]⟩ := by decide

lemma mkTree5_eval : mkTree 5 =
    ⟨5, 3, 15, 0, 0, [0, 0, 0, 0, 0, 0, 0, 0, 0, 0, 0, 0, 0, 0, 0]⟩ := by decide

lemma add3_1 : (mkTree 3).add 1 = ⟨3, 2, 7, 1, 1, [1, 1, 0, 1, 0, 0, 0]⟩ := by
  rw [mkTree3_eval, SumTree.add, SumTree.update]
  norm_num
  rw [propagate]; norm_num
  rw [propagate]; norm_num
  rw [propagate]; norm_num

lemma add3_12 : ((mkTree 3).add 1).add 2 = ⟨3, 2, 7, 2, 2, [3, 3, 0, 1, 2, 0, 0]⟩ := by
  rw [add3_1, SumTree.add, SumTree.update]
  norm_num
  rw [propagate]; norm_num
  rw [propagate]; norm_num
  rw [propagate]; norm_num

lemma add3_123 : (((mkTree 3).add 1).add 2).add 3 =
    ⟨3, 2, 7, 0, 3, [6, 3, 3, 1, 2, 3, 0]⟩ := by
  rw [add3_12, SumTree.add, SumTree.update]
  norm_num
  rw [propagate]; norm_num
  rw [propagate]; norm_num
  rw [propagate]; norm_num

lemma add3_1234 : ((((mkTree 3).add 1).add 2).add 3).add 4 =
    ⟨3, 2, 7, 1, 3, [9, 6, 3, 4, 2, 3, 0]⟩ := by
  rw [add3_123, SumTree.add, SumTree.update]
  norm_num
  rw [propagate]; norm_num
  rw [propagate]; norm_num
  rw [propagate]; norm_num

lemma add4_1 : (mkTree 4).add 1 = ⟨4, 2, 7, 1, 1, [1, 1, 0, 1, 0, 0, 0]⟩ := by
  rw [mkTree4_eval, SumTree.add, SumTree.update]
  norm_num
  rw [propagate]; norm_num
  rw [propagate]; norm_num
  rw [propagate]; norm_num

lemma add4_12 : ((mkTree 4).add 1).add 2 = ⟨4, 2, 7, 2, 2, [3, 3, 0, 1, 2, 0, 0]⟩ := by
  rw [add4_1, SumTree.add, SumTree.update]
  norm_num
  rw [propagate]; norm_num
  rw [propagate]; norm_num
  rw [propagate]; norm_num

lemma add4_123 : (((mkTree 4).add 1).add 2).add 3 =
    ⟨4, 2, 7, 3, 3, [6, 3, 3, 1, 2, 3, 0]⟩ := by
  rw [add4_12, SumTree.add, SumTree.update]
  norm_num
  rw [propagate]; norm_num
  rw [propagate]; norm_num
  rw [propagate]; norm_num

lemma add4_1234 : ((((mkTree 4).add 1).add 2).add 3).add 4 =
    ⟨4, 2, 7, 0, 4, [10, 3, 7, 1, 2, 3, 4]⟩ := by
  rw [add4_123, SumTree.add, SumTree.update]
  norm_num
  rw [propagate]; norm_num
  rw [propagate]; norm_num
  rw [propagate]; norm_num

lemma add5_5 : (mkTree 5).add 5 =
    ⟨5, 3, 15, 1, 1, [5, 5, 0, 5, 0, 0, 0, 5, 0, 0, 0, 0, 0, 0, 0]⟩ := by
  rw [mkTree5_eval, SumTree.add, SumTree.update]
  norm_num
  rw [propagate]; norm_num
  rw [propagate]; norm_num
  rw [propagate]; norm_num
  rw [propagate]; norm_num

lemma add5_51 : ((mkTree 5).add 5).add 1 =
    ⟨5, 3, 15, 2, 2, [6, 6, 0, 6, 0, 0, 0, 5, 1, 0, 0, 0, 0, 0, 0]⟩ := by
  rw [add5_5, SumTree.add, SumTree.update]
  norm_num
  rw [propagate]; norm_num
  rw [propagate]; norm_num
  rw [propagate]; norm_num
  rw [propagate]; norm_num

lemma add5_510 : (((mkTree 5).add 5).add 1).add 0 =
    ⟨5, 3, 15, 3, 3, [6, 6, 0, 6, 0, 0, 0, 5, 1, 0, 0, 0, 0, 0, 0]⟩ := by
  rw [add5_51, SumTree.add, SumTree.update]
  norm_num
  rw [propagate]; norm_num
  rw [propagate]; norm_num
  rw [propagate]; norm_num
  rw [propagate]; norm_num

/-! ## Claims -/

/-- C1: for every sequence of valid update/append calls (slot below the
capacity, weight nonnegative) starting from a freshly constructed tree,
after each call (i.e. after every prefix of the sequence) every non-leaf
index `i` satisfies `weights[i] = weights[2i+1] + weights[2i+2]`, and
`total()` equals the sum of all leaf weights. -/
theorem sum_invariant_after_valid_calls (c : ℕ) (hc : 1 ≤ c)
    (ops pre suf : List Op) (hsplit : ops = pre ++ suf)
    (hvalid : ∀ op ∈ ops, Op.valid c op = true) :
    Inv (applyOps pre (mkTree c)).value ∧
      (applyOps pre (mkTree c)).total = leafSum (applyOps pre (mkTree c)) := by
  have hms : (mkTree c).max_size = c := by rw [mkTree_eq c hc]
  have hgood := applyOps_good pre (mkTree c) (mkTree_WF c hc) (mkTree_Inv c hc)
    (by
      intro op hop
      rw [hms]
      exact hvalid op (by rw [hsplit]; exact List.mem_append_left _ hop))
  exact ⟨hgood.2.1, total_eq_leafSum _ hgood.1 hgood.2.1⟩

theorem sum_invariant_after_valid_calls_witness :
    Inv (applyOps [Op.app 1, Op.upd 0 2] (mkTree 3)).value ∧
      (applyOps [Op.app 1, Op.upd 0 2] (mkTree 3)).total =
        leafSum (applyOps [Op.app 1, Op.upd 0 2] (mkTree 3)) :=
  sum_invariant_after_valid_calls 3 (by norm_num) [Op.app 1, Op.upd 0 2]
    [Op.app 1, Op.upd 0 2] [] rfl (by decide)

/-- C2: the source computes `max` over the slice starting at
`2**tree_depth + 1` although the populated leaves start at
`2**tree_depth - 1`; for capacity 5, after appends of 5 and 1 the method
returns 0 instead of the documented 5 (and still 0 after a third append
of 0), while the slice starting at the true leaf offset does contain the
maximum 5. -/
theorem max_scans_wrong_slice :
    (((mkTree 5).add 5).add 1).max = some 0 ∧
    ((((mkTree 5).add 5).add 1).add 0).max = some 0 ∧
    npMax (((((mkTree 5).add 5).add 1).value.drop (2 ^ 3 - 1)).take 2) = some 5 := by
  refine ⟨?_, ?_, ?_⟩
  · rw [add5_51, SumTree.max]
    norm_num [npMax, List.max?]
  · rw [add5_510, SumTree.max]
    norm_num [npMax, List.max?]
  · rw [add5_51]
    norm_num [npMax, List.max?]

/-- C3 counterexample: `update(-1, 1)` on a fresh capacity-4 tree does not
fail at all: the slot is translated onto internal node 2, the call
succeeds, `total()` becomes 1 (the claim requires an `IndexOutOfRange`
failure with `total()` unchanged at 0) and the leaves still sum to 0. -/
theorem update_validation_cex :
    ∃ u : SumTree, (mkTree 4).updateI (-1) 1 = Except.ok u ∧
      u.total = 1 ∧ leafSum u = 0 := by
  refine ⟨⟨4, 2, 7, 0, 0, [1, 0, 1, 0, 0, 0, 0]⟩, ?_, ?_, ?_⟩
  · rw [mkTree4_eval, SumTree.updateI]
    norm_num [npIdx, show Int.toNat 2 = 2 from rfl]
    rw [propagateI]
    norm_num [show Int.toNat 0 = 0 from rfl]
    rw [propagateI]
    norm_num
  · norm_num [SumTree.total]
  · norm_num [leafSum, Finset.sum_range_succ]

/-- C3 amended: `update` performs no slot or weight validation.  Slot `-1`
on a capacity-4 tree is silently accepted and mutates internal node 2;
slot `capacity` raises a bare index error only when the translated index
falls outside the array (power-of-two capacity 4), while capacity 3
accepts slot 3 and writes a padding leaf; a negative weight is accepted
and stored, making `total()` negative. -/
theorem update_no_validation :
    (mkTree 4).updateI (-1) 1 =
      Except.ok ⟨4, 2, 7, 0, 0, [1, 0, 1, 0, 0, 0, 0]⟩ ∧
    (mkTree 4).updateI 4 1 = Except.error () ∧
    (mkTree 3).updateI 3 1 =
      Except.ok ⟨3, 2, 7, 0, 0, [1, 0, 1, 0, 0, 0, 1]⟩ ∧
    (mkTree 4).updateI 0 (-1) =
      Except.ok ⟨4, 2, 7, 0, 0, [-1, -1, 0, -1, 0, 0, 0]⟩ := by
  refine ⟨?_, ?_, ?_, ?_⟩
  · rw [mkTree4_eval, SumTree.updateI]
    norm_num [npIdx, show Int.toNat 2 = 2 from rfl]
    rw [propagateI]
    norm_num [show Int.toNat 0 = 0 from rfl]
    rw [propagateI]
    norm_num
  · rw [mkTree4_eval, SumTree.updateI]
    norm_num [npIdx]
  · rw [mkTree3_eval, SumTree.updateI]
    norm_num [npIdx, show Int.toNat 6 = 6 from rfl]
    rw [propagateI]
    norm_num [show Int.toNat 2 = 2 from rfl]
    rw [propagateI]
    norm_num [show Int.toNat 0 = 0 from rfl]
    rw [propagateI]
    norm_num
  · rw [mkTree4_eval, SumTree.updateI]
    norm_num [npIdx, show Int.toNat 3 = 3 from rfl]
    rw [propagateI]
    norm_num [show Int.toNat 1 = 1 from rfl]
    rw [propagateI]
    norm_num [show Int.toNat 0 = 0 from rfl]
    rw [propagateI]
    norm_num

/-- C4 counterexample: on the fully populated capacity-4 tree with leaf
weights 1, 2, 3, 4, `find(1.0, normalize=false)` does not return slot 1:
the left-inclusive tie-break routes the boundary target 1.0 into the left
subtree, so slot 0 is returned. -/
theorem find_boundary_tie_cex :
    (((((mkTree 4).add 1).add 2).add 3).add 4).find 1 false ≠ 1 := by
  have h : (((((mkTree 4).add 1).add 2).add 3).add 4).find 1 false = 0 := by
    rw [add4_1234, SumTree.find, if_neg (by decide)]
    rw [SumTree.findHelper]; norm_num
    rw [SumTree.findHelper]; norm_num
    rw [SumTree.findHelper]; norm_num
  rw [h]
  norm_num

/-- C4 amended: on the fully populated capacity-4 tree with leaf weights
1, 2, 3, 4: `total() = 10`, `find(0.0, normalize=false) = 0`,
`find(1.0, normalize=false) = 0` (the boundary target routes left, to the
slot whose cumulative range ends at 1.0), and
`find(9.999, normalize=false) = 3`. -/
theorem find_on_full_capacity4_tree :
    (((((mkTree 4).add 1).add 2).add 3).add 4).total = 10 ∧
    (((((mkTree 4).add 1).add 2).add 3).add 4).find 0 false = 0 ∧
    (((((mkTree 4).add 1).add 2).add 3).add 4).find 1 false = 0 ∧
    (((((mkTree 4).add 1).add 2).add 3).add 4).find (9999 / 1000) false = 3 := by
  refine ⟨?_, ?_, ?_, ?_⟩
  · rw [add4_1234]
    norm_num [SumTree.total]
  · rw [add4_1234, SumTree.find, if_neg (by decide)]
    rw [SumTree.findHelper]; norm_num
    rw [SumTree.findHelper]; norm_num
    rw [SumTree.findHelper]; norm_num
  · rw [add4_1234, SumTree.find, if_neg (by decide)]
    rw [SumTree.findHelper]; norm_num
    rw [SumTree.findHelper]; norm_num
    rw [SumTree.findHelper]; norm_num
  · rw [add4_1234, SumTree.find, if_neg (by decide)]
    rw [SumTree.findHelper]; norm_num
    rw [SumTree.findHelper]; norm_num
    rw [SumTree.findHelper]; norm_num

/-- C5: with capacity 3, appending 1, 2, 3 yields `total() = 6` and the
cursor back at slot 0; a further `append(4)` overwrites the slot-0 leaf
(removing the old weight 1 through the propagated delta) and yields
`total() = 9`; and in general `append(w)` is exactly `update(cursor, w)`
followed by `cursor = (cursor + 1) mod capacity` and
`count = min(count + 1, capacity)`. -/
theorem append_ring_buffer :
    ((((mkTree 3).add 1).add 2).add 3).total = 6 ∧
    ((((mkTree 3).add 1).add 2).add 3).curr = 0 ∧
    (((((mkTree 3).add 1).add 2).add 3).add 4).value.getD
      (0 + 2 ^ (((((mkTree 3).add 1).add 2).add 3).add 4).tree_depth - 1) 0 = 4 ∧
    (((((mkTree 3).add 1).add 2).add 3).add 4).total = 9 ∧
    ∀ (t : SumTree) (w : ℚ), t.add w =
      { (t.update t.curr w) with
          curr := (t.curr + 1) % t.max_size, size := min (t.size + 1) t.max_size } := by
  refine ⟨?_, ?_, ?_, ?_, fun t w => rfl⟩
  · rw [add3_123]
    norm_num [SumTree.total]
  · rw [add3_123]
  · rw [add3_1234]
    norm_num
  · rw [add3_1234]
    norm_num [SumTree.total]

/-- C6: at every internal node of the downward traversal the comparison is
left-inclusive: a remaining target equal to the stored weight of the left
child descends into the left subtree. -/
theorem find_tie_goes_left (t : SumTree) (i : ℕ) (target : ℚ)
    (h : 2 * i + 1 ≤ t.tree_size - 1)
    (heq : target = t.value.getD (2 * i + 1) 0) :
    t.findHelper target i = t.findHelper target (2 * i + 1) := by
  conv_lhs => rw [SumTree.findHelper]
  rw [if_neg (by omega), if_pos (le_of_eq heq)]

theorem find_tie_goes_left_witness :
    (⟨4, 2, 7, 0, 4, [10, 3, 7, 1, 2, 3, 4]⟩ : SumTree).findHelper 1 1 =
      (⟨4, 2, 7, 0, 4, [10, 3, 7, 1, 2, 3, 4]⟩ : SumTree).findHelper 1 3 := by
  have := find_tie_goes_left ⟨4, 2, 7, 0, 4, [10, 3, 7, 1, 2, 3, 4]⟩ 1 1
    (by decide) (by decide)
  simpa using this

/-- C7: construction fails exactly on capacity 0; for every capacity at
least 1 it succeeds with depth the least `d` such that
`capacity ≤ 2 ^ d` (this is `ceil(log2 capacity)`, 0 for capacity 1), a
weight array of length `2^(depth+1) - 1` with every entry 0, cursor 0 and
count 0. -/
theorem new_capacity_spec (c : ℕ) :
    (SumTree.new c = none ↔ c = 0) ∧
    (1 ≤ c → ∃ t : SumTree, SumTree.new c = some t ∧ t.max_size = c ∧
      c ≤ 2 ^ t.tree_depth ∧ (∀ m : ℕ, c ≤ 2 ^ m → t.tree_depth ≤ m) ∧
      t.value.length = 2 ^ (t.tree_depth + 1) - 1 ∧
      (∀ j : ℕ, t.value.getD j 0 = 0) ∧ t.curr = 0 ∧ t.size = 0) := by
  constructor
  · rw [SumTree.new]
    by_cases h : c = 0 <;> simp [h]
  · intro hc
    exact ⟨_, new_eq c hc, rfl, le_pow_ceilLog2 c, fun m hm => ceilLog2_le hm,
      by simp, fun j => getD_replicate_zero _ j, rfl, rfl⟩

theorem new_capacity_spec_witness :
    SumTree.new 0 = none ∧
    (∃ t : SumTree, SumTree.new 5 = some t ∧ t.max_size = 5 ∧
      5 ≤ 2 ^ t.tree_depth ∧ (∀ m : ℕ, 5 ≤ 2 ^ m → t.tree_depth ≤ m) ∧
      t.value.length = 2 ^ (t.tree_depth + 1) - 1 ∧
      (∀ j : ℕ, t.value.getD j 0 = 0) ∧ t.curr = 0 ∧ t.size = 0) :=
  ⟨(new_capacity_spec 0).1.mpr rfl, (new_capacity_spec 5).2 (by norm_num)⟩

/-- C8: for every well-formed tree, slot below the capacity and
nonnegative weight, calling `update(s, w)` twice in a row produces exactly
the state reached after the first call. -/
theorem update_idempotent (t : SumTree) (s : ℕ) (w : ℚ) (hWF : t.WF)
    (hs : s < t.max_size) (hw : 0 ≤ w) :
    (t.update s w).update s w = t.update s w := by
  obtain ⟨hms, hts, hlen, hcap, hcurr, hsize⟩ := hWF
  have hp : 1 ≤ (2 : ℕ) ^ t.tree_depth := Nat.one_le_two_pow
  have hpow : (2 : ℕ) ^ (t.tree_depth + 1) = 2 * 2 ^ t.tree_depth := by ring
  have hlen' : t.value.length = 2 ^ (t.tree_depth + 1) - 1 := by rw [hlen, hts]
  have hleaf : s + 2 ^ t.tree_depth - 1 < t.value.length := by omega
  have hgetD : (t.update s w).value.getD (s + 2 ^ t.tree_depth - 1) 0 = w := by
    rw [update_getD t s w hleaf, if_pos rfl]
  have hstep : (t.update s w).update s w =
      { (t.update s w) with
          value := propagate ((t.update s w).value.set (s + 2 ^ t.tree_depth - 1) w)
            (w - (t.update s w).value.getD (s + 2 ^ t.tree_depth - 1) 0)
            (s + 2 ^ t.tree_depth - 1) } := rfl
  rw [hstep, hgetD, sub_self, propagate_zero_diff,
    show (t.update s w).value.set (s + 2 ^ t.tree_depth - 1) w =
        (t.update s w).value.set (s + 2 ^ t.tree_depth - 1)
          ((t.update s w).value.getD (s + 2 ^ t.tree_depth - 1) 0) from by
      rw [hgetD],
    set_getD_self]

theorem update_idempotent_witness :
    ((mkTree 2).update 0 5).update 0 5 = (mkTree 2).update 0 5 :=
  update_idempotent (mkTree 2) 0 5 (by decide) (by decide) (by decide)

/-- C9: on any well-formed tree with nonnegative weights whose total is 0,
`find(target, normalize=true)` scales every target to 0 and the traversal
descends left at every node, returning slot 0. -/
theorem find_zero_total_leftmost (t : SumTree) (target : ℚ) (hWF : t.WF)
    (hpos : ∀ x ∈ t.value, 0 ≤ x) (h0 : t.total = 0) :
    t.find target true = 0 := by
  have hpos' : ∀ j : ℕ, 0 ≤ t.value.getD j 0 := getD_nonneg hpos
  have h0' : t.value.getD 0 0 = 0 := h0
  rw [SumTree.find, if_pos rfl, h0', mul_zero]
  have := findHelper_left_of_zero t.tree_depth t 0 hWF.2.1 hpos' (by omega)
  simpa using this

theorem find_zero_total_leftmost_witness : (mkTree 2).find 7 true = 0 :=
  find_zero_total_leftmost (mkTree 2) 7 (by decide) (by decide) (by decide)

/-- C10: `find` always terminates with a slot in `[0, 2^depth)` on a
well-formed tree, and for the non-power-of-two capacity 3 there is a
target (1.0 on the fresh tree, larger than the total 0, with
normalize=false) for which the returned slot is a padding index at or
beyond the capacity. -/
theorem find_slot_range :
    (∀ (t : SumTree) (target : ℚ) (nm : Bool), t.WF →
      t.find target nm < 2 ^ t.tree_depth) ∧
    ∃ target : ℚ, (mkTree 3).max_size ≤ (mkTree 3).find target false := by
  constructor
  · intro t target nm hWF
    have hp : 1 ≤ (2 : ℕ) ^ t.tree_depth := Nat.one_le_two_pow
    have hdp : (2 : ℕ) ^ (t.tree_depth + 1) = 2 * 2 ^ t.tree_depth := by ring
    rw [SumTree.find]
    exact findHelper_lt t.tree_size t _ 0 hWF.2.1 (by omega) (by rw [hWF.2.1]; omega)
  · refine ⟨1, ?_⟩
    rw [mkTree3_eval, SumTree.find, if_neg (by decide)]
    rw [SumTree.findHelper]; norm_num
    rw [SumTree.findHelper]; norm_num
    rw [SumTree.findHelper]; norm_num

theorem find_slot_range_witness :
    (mkTree 2).find 0 false < 2 ^ (mkTree 2).tree_depth :=
  find_slot_range.1 (mkTree 2) 0 false (by decide)

end UtilsRL
